import Mathlib

/-!
# Verification of the beam bending calculator core

Shallow embedding of the engineering core of `src/app.py` (a simply supported
beam calculator: reaction solving, piecewise shear/moment fields, cumulative
integration for slope and deflection, and the input range validation).

Numbers are modelled by `ℚ`.  The Python source works with floats, but every
operation the claims refer to (sums, products, divisions by `L` and `E*I`,
cumulative sums, minima, comparisons) is an exact field/order operation, so the
rational model reproduces the source expression-for-expression.

Source mapping (file `src/app.py`):
* lines 53-60 : reaction calculations (`total_point_load`, `udl_load`,
  `udl_centroid`, `moment_about_A`, `total_load`, `RB`, `RA`);
* lines 66-84 : field evaluation over `x_vals = np.linspace(0, L, 1000)`
  (`V`, `M`, point-load loops, UDL block, applied-moment loop);
* lines 86-88 : `theta = np.cumsum(M/(E*I))*dx`, `y = np.cumsum(theta)*dx`,
  `y -= y.min()`;
* lines 24-26, 37-39, 48-50 : range validation (`pos > L` for loads and
  moments, `a_udl > b_udl or b_udl > L` for the UDL) followed by `st.stop()`.
-/

namespace BeamApp

/-- A validated load case in SI units, as assembled by the script after the
unit conversions on lines 14-15, 27, 34 and 46 of `src/app.py`:
`L` in m, `E` in Pa, `I` in m⁴, point loads `(mag N, pos m)`, optional UDL
`(w N/m, a m, b m)` and applied moments `(mag N·m, pos m)`. -/
structure LoadCase where
  L : ℚ
  E : ℚ
  I : ℚ
  loads : List (ℚ × ℚ)
  udl : Option (ℚ × ℚ × ℚ)
  moments : List (ℚ × ℚ)

/-- Line 54: `total_point_load = sum([mag for mag, _ in loads])`. -/
def total_point_load (lc : LoadCase) : ℚ := (lc.loads.map Prod.fst).sum

/-- Line 55: `udl_load = w * (b_udl - a_udl) if use_udl else 0`. -/
def udl_load (lc : LoadCase) : ℚ :=
  match lc.udl with
  | some (w, a, b) => w * (b - a)
  | none => 0

/-- Line 56: `udl_centroid = (a_udl + b_udl) / 2 if use_udl else 0`. -/
def udl_centroid (lc : LoadCase) : ℚ :=
  match lc.udl with
  | some (_, a, b) => (a + b) / 2
  | none => 0

/-- Line 57: `moment_about_A = sum([mag * pos for mag, pos in loads])
+ udl_load * udl_centroid + sum([-M for M, pos in moments])`.
Note the applied moments enter with a minus sign here. -/
def moment_about_A (lc : LoadCase) : ℚ :=
  (lc.loads.map (fun p => p.1 * p.2)).sum + udl_load lc * udl_centroid lc
    + (lc.moments.map (fun p => -p.1)).sum

/-- Line 58: `total_load = total_point_load + udl_load`. -/
def total_load (lc : LoadCase) : ℚ := total_point_load lc + udl_load lc

/-- Line 59: `RB = moment_about_A / L`. -/
def RB (lc : LoadCase) : ℚ := moment_about_A lc / lc.L

/-- Line 60: `RA = total_load - RB`. -/
def RA (lc : LoadCase) : ℚ := total_load lc - RB lc

/-- The indicator-weighted sum `sum(mag * (x >= pos))` realised by the loops
`V -= mag * (x_vals >= pos)` (line 72) and `M += mag * (x_vals >= pos)`
(line 84), evaluated at one sample `x`. -/
def stepSum (ms : List (ℚ × ℚ)) (x : ℚ) : ℚ :=
  (ms.map (fun p => if p.2 ≤ x then p.1 else 0)).sum

/-- The UDL contribution subtracted from the shear array (lines 76-79):
`w*(x - a)` on the zone `a ≤ x ≤ b`, the full resultant `w*(b - a)` for
`x > b`, and nothing before `a`. -/
def udlV (lc : LoadCase) (x : ℚ) : ℚ :=
  match lc.udl with
  | some (w, a, b) =>
      if a ≤ x ∧ x ≤ b then w * (x - a)
      else if b < x then w * (b - a)
      else 0
  | none => 0

/-- The shear field at sample `x`: lines 68, 71-72, 75-79 of the source
(`V = RA`, then `V -= mag*(x>=pos)` per load, then the UDL block). -/
def V (lc : LoadCase) (x : ℚ) : ℚ := RA lc - stepSum lc.loads x - udlV lc x

/-- The point-load contribution subtracted from the moment array (line 73):
`mag * np.where(x >= pos, x - pos, 0)` summed over the loads. -/
def pointM (lc : LoadCase) (x : ℚ) : ℚ :=
  (lc.loads.map (fun p => if p.2 ≤ x then p.1 * (x - p.2) else 0)).sum

/-- The UDL contribution subtracted from the moment array (lines 80-81):
`w*(x-a)^2/2` on the zone and `w*((b-a)^2/2 + (x-b)*(b-a))` past it. -/
def udlM (lc : LoadCase) (x : ℚ) : ℚ :=
  match lc.udl with
  | some (w, a, b) =>
      if a ≤ x ∧ x ≤ b then w * (x - a) ^ 2 / 2
      else if b < x then w * ((b - a) ^ 2 / 2 + (x - b) * (b - a))
      else 0
  | none => 0

/-- The bending moment field at sample `x`: lines 69, 73, 80-81, 83-84
(`M = RA*x`, minus point-load and UDL terms, plus `mag*(x>=pos)` per applied
moment). -/
def M (lc : LoadCase) (x : ℚ) : ℚ :=
  RA lc * x - pointM lc x - udlM lc x + stepSum lc.moments x

/-- Line 66: the sample count of `np.linspace(0, L, 1000)`. -/
def N : ℕ := 1000

/-- Line 66: `x_vals = np.linspace(0, L, 1000)`, i.e. `x_i = L * i / 999`. -/
def x_vals (lc : LoadCase) : List ℚ :=
  (List.range N).map (fun i : ℕ => lc.L * (i : ℚ) / ((N : ℚ) - 1))

/-- Line 67: `dx = x_vals[1] - x_vals[0]`, which equals `L / 999`. -/
def dx (lc : LoadCase) : ℚ := lc.L / ((N : ℚ) - 1)

/-- Inclusive running prefix sums, the meaning of `np.cumsum`. -/
def cumsum (l : List ℚ) : List ℚ := (l.scanl (· + ·) 0).tail

/-- The sampled shear array (the state of `V` after line 79). -/
def V_samples (lc : LoadCase) : List ℚ := (x_vals lc).map (V lc)

/-- The sampled moment array (the state of `M` after line 84). -/
def M_samples (lc : LoadCase) : List ℚ := (x_vals lc).map (M lc)

/-- Line 86: `theta = np.cumsum(M / (E * I)) * dx`. -/
def theta (lc : LoadCase) : List ℚ :=
  (cumsum ((M_samples lc).map (fun m => m / (lc.E * lc.I)))).map
    (fun s => s * dx lc)

/-- Line 87: `y = np.cumsum(theta) * dx` (before the shift). -/
def y_raw (lc : LoadCase) : List ℚ :=
  (cumsum (theta lc)).map (fun s => s * dx lc)

/-- The minimum of a numeric array, the meaning of `y.min()` (0 on the
empty list, which never occurs: the arrays have 1000 entries). -/
def listMin : List ℚ → ℚ
  | [] => 0
  | h :: t => t.foldl min h

/-- Line 88: `y -= y.min()`, the shifted deflection array. -/
def y (lc : LoadCase) : List ℚ :=
  (y_raw lc).map (fun v => v - listMin (y_raw lc))

/-- The full output of the Field Evaluator: the parallel sequences
`x`, shear, moment, slope, deflection. -/
def fields (lc : LoadCase) :
    List ℚ × List ℚ × List ℚ × List ℚ × List ℚ :=
  (x_vals lc, V_samples lc, M_samples lc, theta lc, y lc)

/-- The raw form inputs before unit conversion: `L` m, `E` GPa, `I` cm⁴,
loads `(kN, m)`, UDL `(kN/m, m, m)`, moments `(kNm, m)`. -/
structure RawInput where
  L : ℚ
  E : ℚ
  I : ℚ
  loads : List (ℚ × ℚ)
  udl : Option (ℚ × ℚ × ℚ)
  moments : List (ℚ × ℚ)

/-- The range validation of lines 24-26, 37-39 and 48-50: an error is raised
(then `st.stop()`) when some load position satisfies `pos > L`, when the UDL
satisfies `a_udl > b_udl or b_udl > L`, or when some moment position
satisfies `pos > L`.  No lower bounds are checked. -/
def rangeError (r : RawInput) : Bool :=
  r.loads.any (fun p => decide (r.L < p.2))
    || (match r.udl with
        | some u => decide (u.2.2 < u.2.1) || decide (r.L < u.2.2)
        | none => false)
    || r.moments.any (fun p => decide (r.L < p.2))

/-- The unit conversions of lines 14-15, 27, 34 and 46: `E *= 1e9`,
`I *= 1e-8`, magnitudes `* 1e3`. -/
def mkLoadCase (r : RawInput) : LoadCase :=
  { L := r.L
    E := r.E * 1000000000
    I := r.I / 100000000
    loads := r.loads.map (fun p => (p.1 * 1000, p.2))
    udl := r.udl.map (fun u => (u.1 * 1000, u.2.1, u.2.2))
    moments := r.moments.map (fun p => (p.1 * 1000, p.2)) }

/-- One whole request: the script validates, and either stops with no output
or produces the field arrays. -/
def run (r : RawInput) :
    Option (List ℚ × List ℚ × List ℚ × List ℚ × List ℚ) :=
  if rangeError r then none else some (fields (mkLoadCase r))

/-! ## Helper lemmas about `listMin` and `cumsum` -/

theorem foldl_min_map_sub (c : ℚ) :
    ∀ (t : List ℚ) (h : ℚ),
      List.foldl min (h - c) (t.map (fun v => v - c)) = List.foldl min h t - c := by
  intro t
  induction t with
  | nil => intro h; simp
  | cons a t ih =>
      intro h
      simp only [List.map_cons, List.foldl_cons]
      rw [min_sub_sub_right]
      exact ih (min h a)

theorem foldl_min_le_init : ∀ (t : List ℚ) (h : ℚ), List.foldl min h t ≤ h := by
  intro t
  induction t with
  | nil => intro h; simp
  | cons a t ih =>
      intro h
      simp only [List.foldl_cons]
      exact le_trans (ih (min h a)) (min_le_left _ _)

theorem foldl_min_le_mem :
    ∀ (t : List ℚ) (h z : ℚ), z ∈ t → List.foldl min h t ≤ z := by
  intro t
  induction t with
  | nil => intro h z hz; cases hz
  | cons a t ih =>
      intro h z hz
      simp only [List.foldl_cons]
      rcases List.mem_cons.mp hz with rfl | hz
      · exact le_trans (foldl_min_le_init _ _) (min_le_right _ _)
      · exact ih _ _ hz

theorem listMin_le_of_mem (l : List ℚ) (z : ℚ) (hz : z ∈ l) : listMin l ≤ z := by
  cases l with
  | nil => cases hz
  | cons h t =>
      rcases List.mem_cons.mp hz with rfl | hz
      · exact foldl_min_le_init t z
      · exact foldl_min_le_mem t h z hz

theorem length_cumsum (l : List ℚ) : (cumsum l).length = l.length := by
  simp [cumsum, List.length_tail, List.length_scanl]

theorem listMin_cons (h : ℚ) (t : List ℚ) : listMin (h :: t) = t.foldl min h := rfl

theorem length_y_raw (lc : LoadCase) : (y_raw lc).length = N := by
  unfold y_raw theta M_samples x_vals
  rw [List.length_map, length_cumsum, List.length_map, length_cumsum,
    List.length_map, List.length_map, List.length_map, List.length_range]

/-! ## C2: vertical equilibrium -/

/-- C2: for every LoadCase the computed reactions satisfy vertical
equilibrium: `RA + RB` equals the sum of all point-load magnitudes plus the
UDL resultant `w*(b-a)` (exactly, since `RA` is defined on line 60 as
`total_load - RB`). -/
theorem C2_vertical_equilibrium (lc : LoadCase) :
    RA lc + RB lc = total_point_load lc + udl_load lc := by
  unfold RA total_load
  ring

/-! ## C6: UDL-only reactions -/

/-- The UDL-only scenario of the spec: `L = 10` m, UDL of 2 kN/m = 2000 N/m
over `[2, 6]`, no point loads, no applied moments (default `E`, `I`). -/
def lcC6 : LoadCase :=
  { L := 10, E := 200000000000, I := 1 / 20000
    loads := [], udl := some (2000, 2, 6), moments := [] }

/-- C6: for the UDL-only case `L = 10`, `w = 2` kN/m over `[2, 6]`, the
reaction solver yields `RB = 3.2` kN (3200 N) and `RA = 4.8` kN (4800 N). -/
theorem C6_udl_reactions : RB lcC6 = 3200 ∧ RA lcC6 = 4800 := by
  constructor <;>
    norm_num [RA, RB, total_load, total_point_load, udl_load, udl_centroid,
      moment_about_A, lcC6]

/-! ## C1: applied-moment sign convention -/

/-- The failing input for C1: `L = 10` m, a single applied moment of
5 kNm = 5000 N·m at `x = 4` m, no point loads, no UDL. -/
def lcC1 : LoadCase :=
  { L := 10, E := 200000000000, I := 1 / 20000
    loads := [], udl := none, moments := [(5000, 4)] }

/-- C1 fails on the code: the Reaction Solver subtracts applied moments in
`moment_about_A` (line 57) while the Field Evaluator adds them to the moment
array (line 84), so the two sign conventions are inconsistent.  For the
single applied moment of 5000 N·m the computed bending moment at the right
support is `M(L) = 2 * 5000 = 10000 N·m`, not the zero demanded by the claim
(and by static equilibrium at a roller support). -/
theorem C1_sign_inconsistency :
    M lcC1 lcC1.L = 10000 ∧ M lcC1 lcC1.L ≠ 0 := by
  constructor <;>
    norm_num [M, RA, RB, total_load, total_point_load, udl_load, udl_centroid,
      moment_about_A, pointM, udlM, stepSum, lcC1]

/-! ## C8: the shifted deflection has minimum exactly 0 -/

/-- C8: for every LoadCase the deflection sequence produced by the Field
Evaluator — the cumulative integral of the slope, shifted on line 88 by
subtracting its minimum — has minimum value exactly 0 over the 1000
samples. -/
theorem C8_deflection_min_zero (lc : LoadCase) : listMin (y lc) = 0 := by
  have hne : y_raw lc ≠ [] := by
    intro h
    have := length_y_raw lc
    rw [h] at this
    simp [N] at this
  unfold y
  rcases hl : y_raw lc with _ | ⟨h, t⟩
  · exact absurd hl hne
  · simp only [List.map_cons, listMin_cons]
    rw [foldl_min_map_sub]
    ring

/-! ## C10: every shifted deflection sample is nonnegative -/

/-- C10: after the shift-correction on line 88, every sample of the
deflection sequence is nonnegative — for every LoadCase, including ones with
net upward (negative) loads; the output never contains a negative deflection
value. -/
theorem C10_deflection_nonneg (lc : LoadCase) :
    ((y lc).all (fun v => decide (0 ≤ v))) = true := by
  simp only [List.all_eq_true, decide_eq_true_eq]
  intro v hv
  unfold y at hv
  rcases List.mem_map.mp hv with ⟨u, hu, rfl⟩
  have := listMin_le_of_mem (y_raw lc) u hu
  linarith

/-! ## C3: range validation -/

/-- A raw configuration with a point load at the strictly negative position
`-1` on a beam of length 10: the claim demands a `RangeError` here, but the
code only tests `pos > L`. -/
def rawC3 : RawInput :=
  { L := 10, E := 200, I := 5000
    loads := [(10, -1)], udl := none, moments := [] }

/-- C3 as stated is false on the code: the point load of `rawC3` sits at
position `-1 ∉ [0, 10]`, yet no `RangeError` is raised and the computation
produces its output sequences (the validator of lines 24-26 only tests
`pos > L`, never `pos < 0`). -/
theorem C3_counterexample :
    ((-1 : ℚ) < 0 ∨ (10 : ℚ) < -1) ∧
      rangeError rawC3 = false ∧ (run rawC3).isSome = true := by
  refine ⟨Or.inl (by norm_num), by decide, ?_⟩
  have h : rangeError rawC3 = false := by decide
  unfold run
  rw [h]
  rfl

/-- C3 amended: a `RangeError` is raised (and then no output is produced)
exactly when some point-load position exceeds `L`, the UDL satisfies
`a > b` or `b > L`, or some applied-moment position exceeds `L`; positions
below `0` (and a UDL start below `0`) are not rejected. -/
theorem C3_range_validation_amended (r : RawInput) :
    ((run r).isSome ↔ rangeError r = false) ∧
      (rangeError r = true ↔
        ((∃ p ∈ r.loads, r.L < p.2) ∨
          (match r.udl with
            | some u => u.2.2 < u.2.1 ∨ r.L < u.2.2
            | none => False) ∨
          (∃ p ∈ r.moments, r.L < p.2))) := by
  constructor
  · unfold run
    cases hre : rangeError r <;> simp [hre]
  · rcases hu : r.udl with _ | u
    · simp [rangeError, hu, List.any_eq_true]
    · simp [rangeError, hu, List.any_eq_true]
      exact or_assoc

/-! ## C5: the symmetric point-load scenario -/

/-- The symmetric scenario: `L = 10` m, a single point load of
10 kN = 10000 N at `x = 5`, no UDL, no applied moments. -/
def lcC5 : LoadCase :=
  { L := 10, E := 200000000000, I := 1 / 20000
    loads := [(10000, 5)], udl := none, moments := [] }

/-- C5: in the symmetric case `RA = RB = 5` kN (5000 N); the moment field
attains its maximum at `x = 5` with value 25 kNm (25000 N·m); and the shear
field is `+5` kN (5000 N) for every `x < 5` and `-5` kN for every `x > 5`. -/
theorem C5_symmetric_case :
    RA lcC5 = 5000 ∧ RB lcC5 = 5000 ∧ M lcC5 5 = 25000 ∧
      (∀ x : ℚ, M lcC5 x ≤ M lcC5 5) ∧
      (∀ x : ℚ, x < 5 → V lcC5 x = 5000) ∧
      (∀ x : ℚ, 5 < x → V lcC5 x = -5000) := by
  refine ⟨?_, ?_, ?_, ?_, ?_, ?_⟩
  · norm_num [RA, RB, total_load, total_point_load, udl_load, udl_centroid,
      moment_about_A, lcC5]
  · norm_num [RB, udl_load, udl_centroid, moment_about_A, lcC5]
  · norm_num [M, RA, RB, total_load, total_point_load, udl_load, udl_centroid,
      moment_about_A, pointM, udlM, stepSum, lcC5]
  · intro x
    simp only [M, RA, RB, total_load, total_point_load, udl_load, udl_centroid,
      moment_about_A, pointM, udlM, stepSum, lcC5, List.map_cons, List.map_nil,
      List.sum_cons, List.sum_nil]
    norm_num
    split_ifs <;> linarith
  · intro x hx
    simp only [V, RA, RB, total_load, total_point_load, udl_load, udl_centroid,
      moment_about_A, stepSum, udlV, lcC5, List.map_cons, List.map_nil,
      List.sum_cons, List.sum_nil]
    rw [if_neg (by intro h; exact absurd hx (not_lt.mpr h))]
    norm_num
  · intro x hx
    simp only [V, RA, RB, total_load, total_point_load, udl_load, udl_centroid,
      moment_about_A, stepSum, udlV, lcC5, List.map_cons, List.map_nil,
      List.sum_cons, List.sum_nil]
    rw [if_pos (le_of_lt hx)]
    norm_num

/-- Witness for C5: the symmetric-case theorem applied at the concrete
sample positions `x = 3`, `x = 7` and `x = 4`. -/
theorem C5_witness :
    RA lcC5 = 5000 ∧ V lcC5 3 = 5000 ∧ V lcC5 7 = -5000 ∧
      M lcC5 4 ≤ M lcC5 5 := by
  obtain ⟨h1, _, _, h4, h5, h6⟩ := C5_symmetric_case
  exact ⟨h1, h5 3 (by norm_num), h6 7 (by norm_num), h4 4⟩

/-! ## C7: the UDL contribution to the shear field -/

/-- C7: for a LoadCase whose UDL is `(w, a, b)` with `a ≤ b`, the UDL term
of the shear field is zero for `x < a`, the linear ramp `w*(x-a)` for
`a ≤ x ≤ b`, and the full resultant `w*(b-a)` for `x > b`; this term enters
the total shear negated: `V x = RA - Σ_{pos ≤ x} mag - udlV x`. -/
theorem C7_udl_shear (lc : LoadCase) (w a b : ℚ)
    (h : lc.udl = some (w, a, b)) (hab : a ≤ b) (x : ℚ) :
    (x < a → udlV lc x = 0) ∧
      (a ≤ x → x ≤ b → udlV lc x = w * (x - a)) ∧
      (b < x → udlV lc x = w * (b - a)) ∧
      V lc x = RA lc - stepSum lc.loads x - udlV lc x := by
  refine ⟨?_, ?_, ?_, rfl⟩
  · intro hx
    simp only [udlV, h]
    rw [if_neg (by intro hc; exact absurd hc.1 (not_le.mpr hx)),
      if_neg (by intro hc; linarith)]
  · intro hx1 hx2
    simp only [udlV, h]
    rw [if_pos ⟨hx1, hx2⟩]
  · intro hx
    simp only [udlV, h]
    rw [if_neg (by intro hc; exact absurd hc.2 (not_le.mpr hx)), if_pos hx]

/-- The LoadCase used to witness C7: `L = 10`, UDL `(2000, 2, 6)`. -/
def lcC7 : LoadCase :=
  { L := 10, E := 200000000000, I := 1 / 20000
    loads := [], udl := some (2000, 2, 6), moments := [] }

/-- Witness for C7: the UDL-shear theorem applied to `lcC7` at `x = 4`. -/
theorem C7_witness :
    ((4 : ℚ) < 2 → udlV lcC7 4 = 0) ∧
      ((2 : ℚ) ≤ 4 → (4 : ℚ) ≤ 6 → udlV lcC7 4 = 2000 * (4 - 2)) ∧
      ((6 : ℚ) < 4 → udlV lcC7 4 = 2000 * (6 - 2)) ∧
      V lcC7 4 = RA lcC7 - stepSum lcC7.loads 4 - udlV lcC7 4 :=
  C7_udl_shear lcC7 2000 2 6 rfl (by norm_num) 4

/-! ## C9: determinism of the Field Evaluator -/

/-- C9: the Field Evaluator is deterministic — two LoadCases that agree on
beam length, the product `E*I`, point loads, UDL and applied moments produce
identical `x`, shear, moment, slope and deflection sequences (the evaluator
is a pure function of those validated inputs, with the fixed `N = 1000`). -/
theorem C9_determinism (lc1 lc2 : LoadCase) (hL : lc1.L = lc2.L)
    (hEI : lc1.E * lc1.I = lc2.E * lc2.I) (hloads : lc1.loads = lc2.loads)
    (hudl : lc1.udl = lc2.udl) (hmom : lc1.moments = lc2.moments) :
    fields lc1 = fields lc2 := by
  have hRA : RA lc1 = RA lc2 := by
    unfold RA total_load RB moment_about_A total_point_load udl_load
      udl_centroid
    rw [hL, hloads, hudl, hmom]
  have hx : x_vals lc1 = x_vals lc2 := by
    unfold x_vals
    rw [hL]
  have hdx : dx lc1 = dx lc2 := by
    unfold dx
    rw [hL]
  have hVf : V lc1 = V lc2 := by
    funext t
    unfold V stepSum udlV
    rw [hRA, hloads, hudl]
  have hMf : M lc1 = M lc2 := by
    funext t
    unfold M pointM udlM stepSum
    rw [hRA, hloads, hudl, hmom]
  have hV : V_samples lc1 = V_samples lc2 := by
    unfold V_samples
    rw [hVf, hx]
  have hM : M_samples lc1 = M_samples lc2 := by
    unfold M_samples
    rw [hMf, hx]
  have htheta : theta lc1 = theta lc2 := by
    unfold theta
    rw [hM, hEI, hdx]
  have hy_raw : y_raw lc1 = y_raw lc2 := by
    unfold y_raw
    rw [htheta, hdx]
  have hy : y lc1 = y lc2 := by
    unfold y
    rw [hy_raw]
  unfold fields
  rw [hx, hV, hM, htheta, hy]

/-- Witness for C9: the determinism theorem applied to two syntactically
distinct LoadCases with the same length, the same product `E*I` and the same
loads. -/
theorem C9_witness :
    fields { L := 10, E := 200000000000, I := 1 / 20000, loads := [(10000, 5)],
             udl := none, moments := [] : LoadCase } =
      fields { L := 10, E := 10000000, I := 1, loads := [(10000, 5)],
               udl := none, moments := [] : LoadCase } :=
  C9_determinism _ _ rfl (by norm_num) rfl rfl rfl

/-! ## C4: step discontinuities of the shear and moment fields

The fields `V` and `M` split into a locally constant "step" part (the
indicator sums over point loads resp. applied moments) and a Lipschitz
continuous remainder (reaction term, hinge terms, UDL terms).  The lemmas
below establish the Lipschitz bounds, the local behaviour of the indicator
sums, and combine them into the ε-δ characterisation of the jumps. -/

theorem max_sub_max_abs (u v c : ℚ) : |max u c - max v c| ≤ |u - v| := by
  have h1 : u - v ≤ |u - v| := le_abs_self _
  have h2 : v - u ≤ |u - v| := by
    rw [abs_sub_comm]
    exact le_abs_self _
  have h0 : 0 ≤ |u - v| := abs_nonneg _
  rw [abs_sub_le_iff, max_def, max_def]
  constructor <;> split_ifs <;> linarith

theorem min_sub_min_abs (u v c : ℚ) : |min u c - min v c| ≤ |u - v| := by
  have h1 : u - v ≤ |u - v| := le_abs_self _
  have h2 : v - u ≤ |u - v| := by
    rw [abs_sub_comm]
    exact le_abs_self _
  have h0 : 0 ≤ |u - v| := abs_nonneg _
  rw [abs_sub_le_iff, min_def, min_def]
  constructor <;> split_ifs <;> linarith

theorem clamp_sub_abs (a b u v : ℚ) :
    |min (max u a) b - min (max v a) b| ≤ |u - v| :=
  le_trans (min_sub_min_abs _ _ b) (max_sub_max_abs u v a)

theorem clamp_mem (a b x : ℚ) (hab : a ≤ b) :
    a ≤ min (max x a) b ∧ min (max x a) b ≤ b :=
  ⟨le_min (le_max_right x a) hab, min_le_right _ _⟩

/-- Validity of the (optional) UDL span: `0 ≤ a ≤ b`, the DistributedLoad
invariant of the data model. -/
def udlOK (lc : LoadCase) : Prop :=
  match lc.udl with
  | some u => 0 ≤ u.2.1 ∧ u.2.1 ≤ u.2.2
  | none => True

/-- A Lipschitz constant for the continuous part of the shear field. -/
def KV (lc : LoadCase) : ℚ :=
  match lc.udl with
  | some u => |u.1|
  | none => 0

/-- A Lipschitz constant for the continuous part of the moment field. -/
def KM (lc : LoadCase) : ℚ :=
  |RA lc| + (lc.loads.map (fun p => |p.1|)).sum +
    (match lc.udl with
      | some u => 2 * |u.1| * (u.2.2 - u.2.1)
      | none => 0)

theorem KV_nonneg (lc : LoadCase) : 0 ≤ KV lc := by
  rcases h : lc.udl with _ | u <;> simp [KV, h]

theorem KM_nonneg (lc : LoadCase) (hudl : udlOK lc) : 0 ≤ KM lc := by
  unfold KM
  have h1 : 0 ≤ |RA lc| := abs_nonneg _
  have h2 : 0 ≤ (lc.loads.map (fun p => |p.1|)).sum := by
    refine List.sum_nonneg ?_
    intro z hz
    rcases List.mem_map.mp hz with ⟨p, _, rfl⟩
    exact abs_nonneg _
  rcases h : lc.udl with _ | u
  · simp only [h]
    linarith
  · unfold udlOK at hudl
    rw [h] at hudl
    obtain ⟨h3, h4⟩ := hudl
    simp only [h]
    have h5 : 0 ≤ 2 * |u.1| * (u.2.2 - u.2.1) :=
      mul_nonneg (by positivity) (by linarith)
    linarith

theorem udlV_eq_clamp (lc : LoadCase) (w a b : ℚ)
    (h : lc.udl = some (w, a, b)) (hab : a ≤ b) (x : ℚ) :
    udlV lc x = w * (min (max x a) b - a) := by
  simp only [udlV, h]
  split_ifs with h1 h2
  · rw [max_eq_left h1.1, min_eq_left h1.2]
  · rw [max_eq_left (le_trans hab (le_of_lt h2)), min_eq_right (le_of_lt h2)]
  · have hxb : x ≤ b := not_lt.mp h2
    have hxa : x < a := by
      by_contra hc
      exact h1 ⟨not_lt.mp hc, hxb⟩
    rw [max_eq_right (le_of_lt hxa), min_eq_left hab]
    ring

theorem udlV_lip (lc : LoadCase) (hudl : udlOK lc) (x t : ℚ) :
    |udlV lc x - udlV lc t| ≤ KV lc * |x - t| := by
  rcases h : lc.udl with _ | ⟨w, a, b⟩
  · simp [udlV, KV, h]
  · have hab : a ≤ b := by
      unfold udlOK at hudl
      rw [h] at hudl
      exact hudl.2
    rw [udlV_eq_clamp lc w a b h hab x, udlV_eq_clamp lc w a b h hab t]
    have e : w * (min (max x a) b - a) - w * (min (max t a) b - a) =
        w * (min (max x a) b - min (max t a) b) := by ring
    rw [e, abs_mul]
    have hKV : KV lc = |w| := by simp [KV, h]
    rw [hKV]
    exact mul_le_mul_of_nonneg_left (clamp_sub_abs a b x t) (abs_nonneg w)

theorem hinge_eq (m p x : ℚ) :
    (if p ≤ x then m * (x - p) else 0) = m * max (x - p) 0 := by
  split_ifs with h
  · rw [max_eq_left (by linarith)]
  · rw [max_eq_right (by linarith), mul_zero]

theorem sum_hinge_lip (l : List (ℚ × ℚ)) (x t : ℚ) :
    |(l.map (fun p => if p.2 ≤ x then p.1 * (x - p.2) else 0)).sum -
        (l.map (fun p => if p.2 ≤ t then p.1 * (t - p.2) else 0)).sum| ≤
      (l.map (fun p => |p.1|)).sum * |x - t| := by
  induction l with
  | nil => simp
  | cons p l ih =>
      simp only [List.map_cons, List.sum_cons]
      have h1 : |(if p.2 ≤ x then p.1 * (x - p.2) else 0) -
          (if p.2 ≤ t then p.1 * (t - p.2) else 0)| ≤ |p.1| * |x - t| := by
        rw [hinge_eq, hinge_eq]
        have e : p.1 * max (x - p.2) 0 - p.1 * max (t - p.2) 0 =
            p.1 * (max (x - p.2) 0 - max (t - p.2) 0) := by ring
        rw [e, abs_mul]
        refine mul_le_mul_of_nonneg_left ?_ (abs_nonneg _)
        have h2 := max_sub_max_abs (x - p.2) (t - p.2) 0
        have e2 : (x - p.2) - (t - p.2) = x - t := by ring
        rw [e2] at h2
        exact h2
      rw [add_sub_add_comm, add_mul]
      exact le_trans (abs_add _ _) (add_le_add h1 ih)

theorem udlM_eq_clamp (lc : LoadCase) (w a b : ℚ)
    (h : lc.udl = some (w, a, b)) (hab : a ≤ b) (x : ℚ) :
    udlM lc x =
      w * ((min (max x a) b - a) ^ 2 / 2 + max (x - b) 0 * (b - a)) := by
  simp only [udlM, h]
  split_ifs with h1 h2
  · rw [max_eq_left h1.1, min_eq_left h1.2,
      max_eq_right (by linarith [h1.2] : x - b ≤ 0)]
    ring
  · rw [max_eq_left (le_trans hab (le_of_lt h2)), min_eq_right (le_of_lt h2),
      max_eq_left (by linarith : (0 : ℚ) ≤ x - b)]
  · have hxb : x ≤ b := not_lt.mp h2
    have hxa : x < a := by
      by_contra hc
      exact h1 ⟨not_lt.mp hc, hxb⟩
    rw [max_eq_right (le_of_lt hxa), min_eq_left hab,
      max_eq_right (by linarith : x - b ≤ 0)]
    ring

theorem udlM_lip (lc : LoadCase) (w a b : ℚ)
    (h : lc.udl = some (w, a, b)) (hab : a ≤ b) (x t : ℚ) :
    |udlM lc x - udlM lc t| ≤ 2 * |w| * (b - a) * |x - t| := by
  rw [udlM_eq_clamp lc w a b h hab x, udlM_eq_clamp lc w a b h hab t]
  obtain ⟨hcx1, hcx2⟩ := clamp_mem a b x hab
  obtain ⟨hct1, hct2⟩ := clamp_mem a b t hab
  have h1 : |min (max x a) b - min (max t a) b| ≤ |x - t| :=
    clamp_sub_abs a b x t
  have h2 : |max (x - b) 0 - max (t - b) 0| ≤ |x - t| := by
    have h3 := max_sub_max_abs (x - b) (t - b) 0
    have e : (x - b) - (t - b) = x - t := by ring
    rw [e] at h3
    exact h3
  set cx := min (max x a) b with hcx
  set ct := min (max t a) b with hct
  have e : w * ((cx - a) ^ 2 / 2 + max (x - b) 0 * (b - a)) -
      w * ((ct - a) ^ 2 / 2 + max (t - b) 0 * (b - a)) =
      w * ((cx - ct) * ((cx + ct - 2 * a) / 2)) +
        w * (b - a) * (max (x - b) 0 - max (t - b) 0) := by ring
  rw [e]
  refine le_trans (abs_add _ _) ?_
  have hA : |w * ((cx - ct) * ((cx + ct - 2 * a) / 2))| ≤
      |w| * (b - a) * |x - t| := by
    rw [abs_mul, abs_mul]
    have hmid : |(cx + ct - 2 * a) / 2| ≤ b - a := by
      rw [abs_of_nonneg (by linarith)]
      linarith
    calc |w| * (|cx - ct| * |(cx + ct - 2 * a) / 2|) ≤
        |w| * (|x - t| * (b - a)) := by
          refine mul_le_mul_of_nonneg_left ?_ (abs_nonneg w)
          exact mul_le_mul h1 hmid (abs_nonneg _) (abs_nonneg _)
      _ = |w| * (b - a) * |x - t| := by ring
  have hB : |w * (b - a) * (max (x - b) 0 - max (t - b) 0)| ≤
      |w| * (b - a) * |x - t| := by
    rw [abs_mul, abs_mul, abs_of_nonneg (by linarith : (0 : ℚ) ≤ b - a)]
    exact mul_le_mul_of_nonneg_left h2
      (mul_nonneg (abs_nonneg w) (by linarith))
  calc |w * ((cx - ct) * ((cx + ct - 2 * a) / 2))| +
      |w * (b - a) * (max (x - b) 0 - max (t - b) 0)| ≤
      |w| * (b - a) * |x - t| + |w| * (b - a) * |x - t| := add_le_add hA hB
    _ = 2 * |w| * (b - a) * |x - t| := by ring

/-- The continuous part of the shear field. -/
def contV (lc : LoadCase) (x : ℚ) : ℚ := RA lc - udlV lc x

/-- The continuous part of the moment field. -/
def contM (lc : LoadCase) (x : ℚ) : ℚ :=
  RA lc * x - pointM lc x - udlM lc x

theorem V_decomp (lc : LoadCase) (x : ℚ) :
    V lc x = contV lc x - stepSum lc.loads x := by
  unfold V contV
  ring

theorem M_decomp (lc : LoadCase) (x : ℚ) :
    M lc x = contM lc x + stepSum lc.moments x := by
  unfold M contM
  ring

theorem contV_lip (lc : LoadCase) (hudl : udlOK lc) (x t : ℚ) :
    |contV lc x - contV lc t| ≤ KV lc * |x - t| := by
  have e : contV lc x - contV lc t = -(udlV lc x - udlV lc t) := by
    unfold contV
    ring
  rw [e, abs_neg]
  exact udlV_lip lc hudl x t

theorem contM_lip (lc : LoadCase) (hudl : udlOK lc) (x t : ℚ) :
    |contM lc x - contM lc t| ≤ KM lc * |x - t| := by
  have e : contM lc x - contM lc t =
      RA lc * (x - t) + -(pointM lc x - pointM lc t) +
        -(udlM lc x - udlM lc t) := by
    unfold contM
    ring
  rw [e]
  have h2 : |pointM lc x - pointM lc t| ≤
      (lc.loads.map (fun p => |p.1|)).sum * |x - t| := by
    unfold pointM
    exact sum_hinge_lip lc.loads x t
  have h3 : |udlM lc x - udlM lc t| ≤
      (match lc.udl with
        | some u => 2 * |u.1| * (u.2.2 - u.2.1)
        | none => 0) * |x - t| := by
    rcases h : lc.udl with _ | ⟨w, a, b⟩
    · simp [udlM, h]
    · have hab : a ≤ b := by
        unfold udlOK at hudl
        rw [h] at hudl
        exact hudl.2
      simp only [h]
      exact udlM_lip lc w a b h hab x t
  refine le_trans (abs_add _ _)
    (le_trans (add_le_add_right (abs_add _ _) _) ?_)
  rw [abs_neg, abs_neg, abs_mul]
  unfold KM
  rw [add_mul, add_mul]
  exact add_le_add (add_le_add (le_refl _) h2) h3

/-- A positive lower bound on the distance from `t` to the entries of `ps`
other than `t` itself (capped at 1). -/
def sep (ps : List ℚ) (t : ℚ) : ℚ :=
  ps.foldr (fun p acc => if p = t then acc else min |p - t| acc) 1

theorem sep_pos (ps : List ℚ) (t : ℚ) : 0 < sep ps t := by
  induction ps with
  | nil => norm_num [sep]
  | cons p ps ih =>
      simp only [sep, List.foldr_cons]
      split_ifs with h
      · exact ih
      · exact lt_min (abs_pos.mpr (sub_ne_zero_of_ne h)) ih

theorem sep_le (ps : List ℚ) (t : ℚ) :
    ∀ p ∈ ps, p ≠ t → sep ps t ≤ |p - t| := by
  induction ps with
  | nil => intro p hp; cases hp
  | cons q ps ih =>
      intro p hp hne
      simp only [sep, List.foldr_cons]
      rcases List.mem_cons.mp hp with rfl | hp2
      · rw [if_neg hne]
        exact min_le_left _ _
      · split_ifs with h
        · exact ih p hp2 hne
        · exact le_trans (min_le_right _ _) (ih p hp2 hne)

/-- The total magnitude sitting exactly at position `t`. -/
def massAt (ms : List (ℚ × ℚ)) (t : ℚ) : ℚ :=
  (ms.map (fun p => if p.2 = t then p.1 else 0)).sum

theorem massAt_zero (ms : List (ℚ × ℚ)) (t : ℚ) (h : ∀ p ∈ ms, p.2 ≠ t) :
    massAt ms t = 0 := by
  induction ms with
  | nil => rfl
  | cons p ms ih =>
      simp only [massAt, List.map_cons, List.sum_cons]
      rw [if_neg (h p (List.mem_cons_self p ms)), zero_add]
      exact ih (fun q hq => h q (List.mem_cons_of_mem p hq))

theorem massAt_eq (ms : List (ℚ × ℚ)) (q : ℚ × ℚ) (hq : q ∈ ms)
    (hdist : ms.Pairwise (fun p r => p.2 ≠ r.2)) : massAt ms q.2 = q.1 := by
  induction ms with
  | nil => cases hq
  | cons p ms ih =>
      rcases List.pairwise_cons.mp hdist with ⟨hp, htail⟩
      simp only [massAt, List.map_cons, List.sum_cons]
      rcases List.mem_cons.mp hq with rfl | hq2
      · rw [if_pos rfl]
        have h0 : massAt ms q.2 = 0 :=
          massAt_zero ms q.2 (fun r hr hc => hp r hr hc.symm)
        have h0' : (ms.map (fun p => if p.2 = q.2 then p.1 else 0)).sum = 0 := h0
        rw [h0', add_zero]
      · rw [if_neg (hp q hq2), zero_add]
        exact ih hq2 htail

theorem stepSum_left (ms : List (ℚ × ℚ)) (t δ x : ℚ) (hx1 : t - δ < x)
    (hx2 : x < t) (hsep : ∀ p ∈ ms, p.2 = t ∨ δ ≤ |p.2 - t|) :
    stepSum ms x = stepSum ms t - massAt ms t := by
  induction ms with
  | nil => simp [stepSum, massAt]
  | cons p ms ih =>
      have hterm : (if p.2 ≤ x then p.1 else 0) =
          (if p.2 ≤ t then p.1 else 0) - (if p.2 = t then p.1 else 0) := by
        rcases hsep p (List.mem_cons_self p ms) with h | h
        · rw [if_neg (by rw [h]; exact not_le.mpr hx2), if_pos (le_of_eq h),
            if_pos h]
          ring
        · rcases le_abs.mp h with h2 | h2
          · rw [if_neg (not_le.mpr (by linarith)),
              if_neg (not_le.mpr (by linarith)),
              if_neg (by intro hc; rw [hc] at h2; linarith)]
            ring
          · rw [if_pos (by linarith), if_pos (by linarith),
              if_neg (by intro hc; rw [hc] at h2; linarith)]
            ring
      simp only [stepSum, massAt, List.map_cons, List.sum_cons]
      rw [hterm]
      have ih2 : (ms.map (fun p => if p.2 ≤ x then p.1 else 0)).sum =
          (ms.map (fun p => if p.2 ≤ t then p.1 else 0)).sum -
            (ms.map (fun p => if p.2 = t then p.1 else 0)).sum :=
        ih (fun q hqm => hsep q (List.mem_cons_of_mem p hqm))
      rw [ih2]
      ring

theorem stepSum_right (ms : List (ℚ × ℚ)) (t δ x : ℚ) (hx1 : t ≤ x)
    (hx2 : x < t + δ) (hsep : ∀ p ∈ ms, p.2 = t ∨ δ ≤ |p.2 - t|) :
    stepSum ms x = stepSum ms t := by
  induction ms with
  | nil => rfl
  | cons p ms ih =>
      have hterm : (if p.2 ≤ x then p.1 else 0) =
          (if p.2 ≤ t then p.1 else 0) := by
        rcases hsep p (List.mem_cons_self p ms) with h | h
        · rw [if_pos (le_trans (le_of_eq h) hx1), if_pos (le_of_eq h)]
        · rcases le_abs.mp h with h2 | h2
          · rw [if_neg (not_le.mpr (by linarith)),
              if_neg (not_le.mpr (by linarith))]
          · rw [if_pos (by linarith), if_pos (by linarith)]
      simp only [stepSum, List.map_cons, List.sum_cons]
      rw [hterm]
      have ih2 : (ms.map (fun p => if p.2 ≤ x then p.1 else 0)).sum =
          (ms.map (fun p => if p.2 ≤ t then p.1 else 0)).sum :=
        ih (fun q hqm => hsep q (List.mem_cons_of_mem p hqm))
      rw [ih2]

theorem stepSum_stable (ms : List (ℚ × ℚ)) (t δ x : ℚ) (hx : |x - t| < δ)
    (hsep : ∀ p ∈ ms, δ ≤ |p.2 - t|) : stepSum ms x = stepSum ms t := by
  obtain ⟨hx1, hx2⟩ := abs_lt.mp hx
  induction ms with
  | nil => rfl
  | cons p ms ih =>
      have h := hsep p (List.mem_cons_self p ms)
      have hterm : (if p.2 ≤ x then p.1 else 0) =
          (if p.2 ≤ t then p.1 else 0) := by
        rcases le_abs.mp h with h2 | h2
        · rw [if_neg (not_le.mpr (by linarith)),
            if_neg (not_le.mpr (by linarith))]
        · rw [if_pos (by linarith), if_pos (by linarith)]
      simp only [stepSum, List.map_cons, List.sum_cons]
      rw [hterm]
      have ih2 : (ms.map (fun p => if p.2 ≤ x then p.1 else 0)).sum =
          (ms.map (fun p => if p.2 ≤ t then p.1 else 0)).sum :=
        ih (fun q hqm => hsep q (List.mem_cons_of_mem p hqm))
      rw [ih2]

theorem stepSum_zero_of (ms : List (ℚ × ℚ)) (x : ℚ)
    (h : ∀ p ∈ ms, ¬p.2 ≤ x) : stepSum ms x = 0 := by
  induction ms with
  | nil => rfl
  | cons p ms ih =>
      simp only [stepSum, List.map_cons, List.sum_cons]
      rw [if_neg (h p (List.mem_cons_self p ms)), zero_add]
      exact ih (fun q hq => h q (List.mem_cons_of_mem p hq))

theorem stepSum_neg_map (l : List (ℚ × ℚ)) (x : ℚ) :
    stepSum (l.map (fun p => (-p.1, p.2))) x = -stepSum l x := by
  induction l with
  | nil => simp [stepSum]
  | cons p l ih =>
      simp only [stepSum, List.map_cons, List.sum_cons] at ih ⊢
      rw [ih]
      by_cases h : p.2 ≤ x
      · rw [if_pos h, if_pos h]
        ring
      · rw [if_neg h, if_neg h]
        ring

theorem K_bound (K ε d : ℚ) (hK : 0 ≤ K) (_hε : 0 < ε) (hd0 : 0 ≤ d)
    (hd : d < ε / (K + 1)) : K * d < ε := by
  have hK1 : (0 : ℚ) < K + 1 := by linarith
  have h2 : (K + 1) * d < (K + 1) * (ε / (K + 1)) :=
    mul_lt_mul_of_pos_left hd hK1
  have h3 : (K + 1) * (ε / (K + 1)) = ε := by field_simp
  rw [h3] at h2
  have h4 : K * d ≤ (K + 1) * d :=
    mul_le_mul_of_nonneg_right (by linarith) hd0
  linarith

/-- The common ε-δ argument: a function that splits as a `K`-Lipschitz part
plus an indicator sum over `ms` has, at each position of `ms` (positions
pairwise distinct), left limit `F p - mag` and right limit `F p`, and is
continuous at every other point. -/
theorem jump_spec (cont : ℚ → ℚ) (K : ℚ) (hK : 0 ≤ K)
    (hlip : ∀ x t, |cont x - cont t| ≤ K * |x - t|)
    (ms : List (ℚ × ℚ)) (F : ℚ → ℚ)
    (hF : ∀ x, F x = cont x + stepSum ms x)
    (hdist : ms.Pairwise (fun p r => p.2 ≠ r.2)) :
    (∀ q ∈ ms, ∀ ε : ℚ, 0 < ε → ∃ δ : ℚ, 0 < δ ∧
      (∀ x, q.2 - δ < x → x < q.2 → |F x - (F q.2 - q.1)| < ε) ∧
      (∀ x, q.2 ≤ x → x < q.2 + δ → |F x - F q.2| < ε)) ∧
    (∀ t, (∀ p ∈ ms, p.2 ≠ t) → ∀ ε : ℚ, 0 < ε → ∃ δ : ℚ, 0 < δ ∧
      ∀ x, |x - t| < δ → |F x - F t| < ε) := by
  constructor
  · intro q hq ε hε
    refine ⟨min (sep (ms.map Prod.snd) q.2) (ε / (K + 1)),
      lt_min (sep_pos _ _) (div_pos hε (by linarith)), ?_, ?_⟩
    · intro x hx1 hx2
      have hδ2 : min (sep (ms.map Prod.snd) q.2) (ε / (K + 1)) ≤
          ε / (K + 1) := min_le_right _ _
      have hsep : ∀ p ∈ ms, p.2 = q.2 ∨
          min (sep (ms.map Prod.snd) q.2) (ε / (K + 1)) ≤ |p.2 - q.2| := by
        intro p hp
        by_cases hc : p.2 = q.2
        · exact Or.inl hc
        · exact Or.inr (le_trans (min_le_left _ _)
            (sep_le _ _ p.2 (List.mem_map_of_mem _ hp) hc))
      have hstep := stepSum_left ms q.2 _ x hx1 hx2 hsep
      have hmass := massAt_eq ms q hq hdist
      have hFx : F x - (F q.2 - q.1) = cont x - cont q.2 := by
        rw [hF x, hF q.2, hstep, hmass]
        ring
      rw [hFx]
      have hdlt : |x - q.2| < ε / (K + 1) := by
        rw [abs_of_neg (by linarith : x - q.2 < 0)]
        linarith
      exact lt_of_le_of_lt (hlip x q.2)
        (K_bound K ε _ hK hε (abs_nonneg _) hdlt)
    · intro x hx1 hx2
      have hδ2 : min (sep (ms.map Prod.snd) q.2) (ε / (K + 1)) ≤
          ε / (K + 1) := min_le_right _ _
      have hsep : ∀ p ∈ ms, p.2 = q.2 ∨
          min (sep (ms.map Prod.snd) q.2) (ε / (K + 1)) ≤ |p.2 - q.2| := by
        intro p hp
        by_cases hc : p.2 = q.2
        · exact Or.inl hc
        · exact Or.inr (le_trans (min_le_left _ _)
            (sep_le _ _ p.2 (List.mem_map_of_mem _ hp) hc))
      have hstep := stepSum_right ms q.2 _ x hx1 hx2 hsep
      have hFx : F x - F q.2 = cont x - cont q.2 := by
        rw [hF x, hF q.2, hstep]
        ring
      rw [hFx]
      have hdlt : |x - q.2| < ε / (K + 1) := by
        rw [abs_of_nonneg (by linarith : (0 : ℚ) ≤ x - q.2)]
        linarith
      exact lt_of_le_of_lt (hlip x q.2)
        (K_bound K ε _ hK hε (abs_nonneg _) hdlt)
  · intro t hall ε hε
    refine ⟨min (sep (ms.map Prod.snd) t) (ε / (K + 1)),
      lt_min (sep_pos _ _) (div_pos hε (by linarith)), ?_⟩
    intro x hx
    have hsep : ∀ p ∈ ms,
        min (sep (ms.map Prod.snd) t) (ε / (K + 1)) ≤ |p.2 - t| :=
      fun p hp => le_trans (min_le_left _ _)
        (sep_le _ _ p.2 (List.mem_map_of_mem _ hp) (hall p hp))
    have hstep := stepSum_stable ms t _ x hx hsep
    have hFx : F x - F t = cont x - cont t := by
      rw [hF x, hF t, hstep]
      ring
    rw [hFx]
    have hdlt : |x - t| < ε / (K + 1) := lt_of_lt_of_le hx (min_le_right _ _)
    exact lt_of_le_of_lt (hlip x t)
      (K_bound K ε _ hK hε (abs_nonneg _) hdlt)

/-- C4: with pairwise-distinct load positions and pairwise-distinct applied
moment positions (and a valid UDL span), the computed shear field has a step
discontinuity exactly at each point-load position — its left limit there is
`V(pos) + mag`, so the jump is `-mag` — and shear starts from `RA` at `x = 0`
(when no load sits at `0`); the computed moment field has a step
discontinuity exactly at each applied-moment position — its left limit there
is `M(pos) - mag`, so the jump is `+mag` — and both fields are continuous
(right-continuous at the jumps, continuous elsewhere), stated in ε-δ form. -/
theorem C4_discontinuities (lc : LoadCase) (hudl : udlOK lc)
    (hdl : lc.loads.Pairwise (fun p q => p.2 ≠ q.2))
    (hdm : lc.moments.Pairwise (fun p q => p.2 ≠ q.2)) :
    ((∀ p ∈ lc.loads, 0 < p.2) → V lc 0 = RA lc) ∧
    (∀ q ∈ lc.loads, ∀ ε : ℚ, 0 < ε → ∃ δ : ℚ, 0 < δ ∧
      (∀ x, q.2 - δ < x → x < q.2 → |V lc x - (V lc q.2 + q.1)| < ε) ∧
      (∀ x, q.2 ≤ x → x < q.2 + δ → |V lc x - V lc q.2| < ε)) ∧
    (∀ t, (∀ p ∈ lc.loads, p.2 ≠ t) → ∀ ε : ℚ, 0 < ε → ∃ δ : ℚ, 0 < δ ∧
      ∀ x, |x - t| < δ → |V lc x - V lc t| < ε) ∧
    (∀ q ∈ lc.moments, ∀ ε : ℚ, 0 < ε → ∃ δ : ℚ, 0 < δ ∧
      (∀ x, q.2 - δ < x → x < q.2 → |M lc x - (M lc q.2 - q.1)| < ε) ∧
      (∀ x, q.2 ≤ x → x < q.2 + δ → |M lc x - M lc q.2| < ε)) ∧
    (∀ t, (∀ p ∈ lc.moments, p.2 ≠ t) → ∀ ε : ℚ, 0 < ε → ∃ δ : ℚ, 0 < δ ∧
      ∀ x, |x - t| < δ → |M lc x - M lc t| < ε) := by
  have hMspec := jump_spec (contM lc) (KM lc) (KM_nonneg lc hudl)
    (contM_lip lc hudl) lc.moments (M lc) (M_decomp lc) hdm
  have hdist' : (lc.loads.map (fun p => ((-p.1, p.2) : ℚ × ℚ))).Pairwise
      (fun p r => p.2 ≠ r.2) := by
    rw [List.pairwise_map]
    exact hdl.imp (fun h => h)
  have hVF : ∀ x, V lc x =
      contV lc x + stepSum (lc.loads.map (fun p => (-p.1, p.2))) x := by
    intro x
    rw [V_decomp, stepSum_neg_map]
    ring
  have hVspec := jump_spec (contV lc) (KV lc) (KV_nonneg lc)
    (contV_lip lc hudl) (lc.loads.map (fun p => (-p.1, p.2))) (V lc) hVF
    hdist'
  refine ⟨?_, ?_, ?_, hMspec.1, hMspec.2⟩
  · intro hpos
    rw [V_decomp]
    have h1 : stepSum lc.loads 0 = 0 :=
      stepSum_zero_of lc.loads 0 (fun p hp => not_le.mpr (hpos p hp))
    have h2 : udlV lc 0 = 0 := by
      rcases h : lc.udl with _ | ⟨w, a, b⟩
      · simp [udlV, h]
      · unfold udlOK at hudl
        rw [h] at hudl
        obtain ⟨h0a, hab⟩ := hudl
        simp only [udlV, h]
        split_ifs with hz1 hz2
        · have ha0 : a = 0 := le_antisymm hz1.1 h0a
          rw [ha0]
          norm_num
        · linarith
        · rfl
    unfold contV
    rw [h1, h2]
    ring
  · intro q hq ε hε
    obtain ⟨δ, hδ, hL, hR⟩ :=
      hVspec.1 (-q.1, q.2) (List.mem_map_of_mem _ hq) ε hε
    refine ⟨δ, hδ, ?_, ?_⟩
    · intro x h1 h2
      have h3 := hL x h1 h2
      simpa using h3
    · intro x h1 h2
      exact hR x h1 h2
  · intro t hall ε hε
    refine hVspec.2 t ?_ ε hε
    intro p hp
    rcases List.mem_map.mp hp with ⟨r, hr, rfl⟩
    exact hall r hr

/-- The LoadCase used to witness C4: one point load, a UDL and one applied
moment, all at distinct positions. -/
def lcC4 : LoadCase :=
  { L := 10, E := 200000000000, I := 1 / 20000
    loads := [(10000, 5)], udl := some (2000, 2, 6), moments := [(5000, 4)] }

/-- Witness for C4: the discontinuity theorem applied to `lcC4`, whose
hypotheses (valid UDL span, distinct positions) hold by computation. -/
theorem C4_witness :
    ((∀ p ∈ lcC4.loads, 0 < p.2) → V lcC4 0 = RA lcC4) ∧
    (∀ q ∈ lcC4.loads, ∀ ε : ℚ, 0 < ε → ∃ δ : ℚ, 0 < δ ∧
      (∀ x, q.2 - δ < x → x < q.2 → |V lcC4 x - (V lcC4 q.2 + q.1)| < ε) ∧
      (∀ x, q.2 ≤ x → x < q.2 + δ → |V lcC4 x - V lcC4 q.2| < ε)) ∧
    (∀ t, (∀ p ∈ lcC4.loads, p.2 ≠ t) → ∀ ε : ℚ, 0 < ε → ∃ δ : ℚ, 0 < δ ∧
      ∀ x, |x - t| < δ → |V lcC4 x - V lcC4 t| < ε) ∧
    (∀ q ∈ lcC4.moments, ∀ ε : ℚ, 0 < ε → ∃ δ : ℚ, 0 < δ ∧
      (∀ x, q.2 - δ < x → x < q.2 → |M lcC4 x - (M lcC4 q.2 - q.1)| < ε) ∧
      (∀ x, q.2 ≤ x → x < q.2 + δ → |M lcC4 x - M lcC4 q.2| < ε)) ∧
    (∀ t, (∀ p ∈ lcC4.moments, p.2 ≠ t) → ∀ ε : ℚ, 0 < ε → ∃ δ : ℚ, 0 < δ ∧
      ∀ x, |x - t| < δ → |M lcC4 x - M lcC4 t| < ε) :=
  C4_discontinuities lcC4 (by exact ⟨by norm_num, by norm_num⟩)
    (by simp [lcC4]) (by simp [lcC4])

end BeamApp
